import Mathlib

/-
Verification of the phase-space reconstruction and intrinsic-dimension
estimation core of the ts-pymfe repository (src/ts/_utils.py and
src/ts/general.py), shallowly embedded over the rationals.  Floating point
numbers are modelled as exact rationals extended with the IEEE special
values +inf, -inf and NaN where those can actually arise (the XQ type).
The standard deviation is an irrational square root in general, so models
receive it as an explicit rational parameter constrained by
sigma ^ 2 = population variance in the theorems.
-/

namespace TsPymfe

/-- Arithmetic mean of a rational list, as computed by numpy mean
(division by a zero length yields 0 in the rational model; the degenerate
empty case is excluded by hypotheses wherever it matters). -/
def qmean (xs : List ℚ) : ℚ := xs.sum / xs.length

/-- Population variance of a rational list (numpy std with ddof = 0 is its
square root). -/
def popVar (xs : List ℚ) : ℚ :=
  ((xs.map (fun v => (v - qmean xs) ^ 2)).sum) / xs.length

/-- Transform step of sklearn.preprocessing.StandardScaler().fit_transform as
called by standardize_ts (src/ts/_utils.py line 64): subtract the mean and
divide by the standard deviation.  sklearn replaces a zero scale by 1
(sklearn.preprocessing._data, handle_zeros_in_scale), so a zero-variance
input is only centered, producing the all-zero sequence.  The parameter
sigma stands for the population standard deviation of xs. -/
def scalerTransform (xs : List ℚ) (sigma : ℚ) : List ℚ :=
  xs.map (fun v => (v - qmean xs) / (if sigma = 0 then 1 else sigma))

/-- standardize_ts, src/ts/_utils.py lines 54-66.  When ts_scaled is provided
the source returns ts (line 66: return ts), not ts_scaled; otherwise it fits
and applies a StandardScaler to ts.  sigma stands for the population standard
deviation of ts (see scalerTransform). -/
def standardize_ts (ts : List ℚ) (sigma : ℚ)
    (ts_scaled : Option (List ℚ)) : List ℚ :=
  match ts_scaled with
  | some _ => ts
  | none => scalerTransform ts sigma

/-- Extended rational modelling an IEEE double where the special values can
actually arise in this code: a finite value, +infinity (written into the
distance matrix by nn), -infinity (reachable through np.diff on arrays
holding +infinity) and NaN (inf/inf, 0 * inf, mean of an empty slice). -/
inductive XQ where
  | fin (q : ℚ)
  | inf
  | ninf
  | nan
deriving DecidableEq, Repr

/-- IEEE addition on XQ (numpy semantics: NaN propagates, inf + (-inf) = NaN). -/
def xadd : XQ → XQ → XQ
  | XQ.nan, _ => XQ.nan
  | _, XQ.nan => XQ.nan
  | XQ.inf, XQ.ninf => XQ.nan
  | XQ.ninf, XQ.inf => XQ.nan
  | XQ.inf, _ => XQ.inf
  | _, XQ.inf => XQ.inf
  | XQ.ninf, _ => XQ.ninf
  | _, XQ.ninf => XQ.ninf
  | XQ.fin a, XQ.fin b => XQ.fin (a + b)

/-- IEEE subtraction on XQ (inf - inf = NaN, finite - inf = -inf, ...). -/
def xsub : XQ → XQ → XQ
  | XQ.nan, _ => XQ.nan
  | _, XQ.nan => XQ.nan
  | XQ.inf, XQ.inf => XQ.nan
  | XQ.ninf, XQ.ninf => XQ.nan
  | XQ.inf, _ => XQ.inf
  | XQ.ninf, _ => XQ.ninf
  | XQ.fin _, XQ.inf => XQ.ninf
  | XQ.fin _, XQ.ninf => XQ.inf
  | XQ.fin a, XQ.fin b => XQ.fin (a - b)

/-- IEEE absolute value on XQ. -/
def xabs : XQ → XQ
  | XQ.fin a => XQ.fin |a|
  | XQ.inf => XQ.inf
  | XQ.ninf => XQ.inf
  | XQ.nan => XQ.nan

/-- np.maximum on XQ (NaN propagates; -inf is the identity). -/
def xmax : XQ → XQ → XQ
  | XQ.nan, _ => XQ.nan
  | _, XQ.nan => XQ.nan
  | XQ.inf, _ => XQ.inf
  | _, XQ.inf => XQ.inf
  | XQ.ninf, b => b
  | a, XQ.ninf => a
  | XQ.fin a, XQ.fin b => XQ.fin (max a b)

/-- IEEE division on XQ (numpy float semantics: inf/inf = NaN, a/inf = 0,
inf/0 = inf, a/0 = sign(a) * inf for finite nonzero a, 0/0 = NaN). -/
def xdiv : XQ → XQ → XQ
  | XQ.nan, _ => XQ.nan
  | _, XQ.nan => XQ.nan
  | XQ.inf, XQ.inf => XQ.nan
  | XQ.inf, XQ.ninf => XQ.nan
  | XQ.ninf, XQ.inf => XQ.nan
  | XQ.ninf, XQ.ninf => XQ.nan
  | XQ.fin _, XQ.inf => XQ.fin 0
  | XQ.fin _, XQ.ninf => XQ.fin 0
  | XQ.inf, XQ.fin b => if b < 0 then XQ.ninf else XQ.inf
  | XQ.ninf, XQ.fin b => if b < 0 then XQ.inf else XQ.ninf
  | XQ.fin a, XQ.fin b =>
    if b = 0 then (if a = 0 then XQ.nan else if a < 0 then XQ.ninf else XQ.inf)
    else XQ.fin (a / b)

/-- Strict IEEE comparison on XQ as a Boolean (any comparison involving NaN
is false, matching numpy elementwise comparison). -/
def xltB : XQ → XQ → Bool
  | XQ.nan, _ => false
  | _, XQ.nan => false
  | XQ.fin a, XQ.fin b => decide (a < b)
  | XQ.fin _, XQ.inf => true
  | XQ.fin _, XQ.ninf => false
  | XQ.inf, _ => false
  | XQ.ninf, XQ.ninf => false
  | XQ.ninf, _ => true

/-- Non-strict IEEE comparison on XQ as a Boolean (false on NaN operands). -/
def xleB : XQ → XQ → Bool
  | XQ.nan, _ => false
  | _, XQ.nan => false
  | XQ.fin a, XQ.fin b => decide (a ≤ b)
  | XQ.fin _, XQ.inf => true
  | XQ.fin _, XQ.ninf => false
  | XQ.inf, XQ.inf => true
  | XQ.inf, _ => false
  | XQ.ninf, _ => true

/-- Sum of a list of XQ values, folded left from 0 like numpy sum. -/
def xsum (xs : List XQ) : XQ := xs.foldl xadd (XQ.fin 0)

/-- np.mean on an XQ array: sum divided by length (the empty slice gives
0 / 0 = NaN, as numpy warns and returns). -/
def xmean (xs : List XQ) : XQ := xdiv (xsum xs) (XQ.fin xs.length)

/-- Chebyshev distance between two equal-length rational vectors, the default
metric of nn (scipy.spatial.distance.cdist with metric chebyshev). -/
def cheb (x y : List ℚ) : ℚ :=
  (List.zipWith (fun a b => |a - b|) x y).foldl max 0

/-- One row of the pairwise Chebyshev distance matrix. -/
def distRow (e : List (List ℚ)) (x : List ℚ) : List ℚ :=
  e.map (fun y => cheb x y)

/-- Full pairwise Chebyshev distance matrix of an embedding, row i column j
holding the distance between rows i and j (scipy cdist(embed, embed)). -/
def distMatrix (e : List (List ℚ)) : List (List ℚ) :=
  e.map (fun x => distRow e x)

/-- The absolute tolerance of np.isclose(d, 0.0): the default atol is 1e-8 and
the relative term vanishes at a zero reference, so the test is d ≤ 1e-8 for a
nonnegative distance. -/
def dupTol : ℚ := 1 / 100000000

/-- The in-place masked assignment dist_mat[np.isclose(dist_mat, 0.0)] = np.inf
of nn (src/ts/_utils.py line 343), applied to one entry. -/
def clampDup (d : ℚ) : XQ :=
  if |d| ≤ dupTol then XQ.inf else XQ.fin d

/-- The clamped distance matrix used by nn after the masked assignment. -/
def clampMatrix (m : List (List ℚ)) : List (List XQ) :=
  m.map (fun r => r.map clampDup)

/-- Matrix entry access dm[r][c]; indices are in range wherever this is used,
the NaN default only keeps the function total. -/
def xget (m : List (List XQ)) (r c : Nat) : XQ :=
  (m.getD r []).getD c XQ.nan

/-- Tail of np.argmin: scans the remaining entries, keeping the first index
attaining the strict minimum (numpy returns the first occurrence of the
minimum).  Arguments: remaining entries, index of the next entry, best index
so far, best value so far; returns (best index, best value). -/
def argminAux : List XQ → Nat → Nat → XQ → Nat × XQ
  | [], _, b, bv => (b, bv)
  | v :: rest, i, b, bv =>
    if xltB v bv then argminAux rest (i + 1) i v
    else argminAux rest (i + 1) b bv

/-- np.argmin over one row (first index of the minimum; numpy also returns 0
on an empty input after an error, the 0 default only keeps this total). -/
def argminRow : List XQ → Nat
  | [] => 0
  | v :: rest => (argminAux rest 1 0 v).1

/-- nn, src/ts/_utils.py lines 334-347, at its default chebyshev metric:
builds the pairwise distance matrix, overwrites entries close to zero with
+inf (self-distances and exact duplicates), takes the row-wise argmin and
returns those indices together with dist_mat[nn_inds[i], i]. -/
def nnModel (e : List (List ℚ)) : List Nat × List XQ :=
  ((clampMatrix (distMatrix e)).map argminRow,
   (List.range e.length).map (fun i =>
     xget (clampMatrix (distMatrix e))
       (((clampMatrix (distMatrix e)).map argminRow).getD i 0) i))

/-- Modelled from the spec: the delay embedder _embed.embed_ts is imported by
src/ts/_utils.py but its module is not among the provided sources.  Following
spec sections 3, 4.2 and 8: the embedding of a sequence of length N at lag
tau and dimension m has N - (m-1)*tau rows, row i column j holds element
i + j*tau, and construction fails (a ValueError caught by the callers) when
N - (m-1)*tau < 1. -/
def embed_ts (tss : List ℚ) (lag dim : Nat) : Option (List (List ℚ)) :=
  if tss.length < (dim - 1) * lag + 1 then none
  else some ((List.range (tss.length - (dim - 1) * lag)).map
    (fun i => (List.range dim).map (fun j => tss.getD (i + j * lag) 0)))

/-- The per-candidate-dimension data shared by embed_dim_fnn and
embed_dim_cao (src/ts/_utils.py lines 377-397 and 425-452): the embedding at
dim + 1, its split into the one extra coordinate (column 0) and the current
embedding (columns 1:), the nearest-neighbor indices and clamped distances of
the current embedding, the absolute extra-coordinate differences
|emb_next[i, 0] - emb_next[nn_inds[i], 0]|, and
dist_next = np.maximum(dist_cur, emb_next_abs_diff). -/
structure StepData where
  embNext : List (List ℚ)
  embCur : List (List ℚ)
  extra : List ℚ
  nnInds : List Nat
  distCur : List XQ
  extraDiff : List ℚ
  distNext : List XQ
deriving DecidableEq, Repr

/-- Builds the StepData of one candidate dimension, or none when the
embedding at dim + 1 fails (sequence too short). -/
def mkStep (tss : List ℚ) (lag dim : Nat) : Option StepData :=
  (embed_ts tss lag (dim + 1)).map (fun en =>
    let ec := en.map (fun r => r.tail)
    let ex := en.map (fun r => r.headD 0)
    let inds := (nnModel ec).1
    let dc := (nnModel ec).2
    let ediff := (List.range en.length).map
      (fun i => |ex.getD i 0 - ex.getD (inds.getD i 0) 0|)
    let dn := List.zipWith xmax dc (ediff.map XQ.fin)
    ⟨en, ec, ex, inds, dc, ediff, dn⟩)

/-- The error kinds raised by the modelled code paths: ValueError for the
explicit lag validation, NameError for the assignment to the undefined names
ed and ed_star in the except branch of embed_dim_fnn (src/ts/_utils.py lines
385-386). -/
inductive PyErr where
  | valueError
  | nameError
deriving DecidableEq, Repr

/-- E_d entry of embed_dim_cao at one candidate dimension
(src/ts/_utils.py line 451): np.mean(dist_next / dist_cur). -/
def caoEd (sd : StepData) : XQ :=
  xmean (List.zipWith xdiv sd.distNext sd.distCur)

/-- E star entry of embed_dim_cao at one candidate dimension
(src/ts/_utils.py line 452): np.mean(emb_next_abs_diff). -/
def caoEdStar (sd : StepData) : XQ :=
  xmean (sd.extraDiff.map XQ.fin)

/-- The dimension loop of embed_dim_cao (src/ts/_utils.py lines 425-452): on
an embedding failure the entries from the current index onward are set to NaN
and the loop breaks; otherwise the E and E star entries are recorded. -/
def caoLoop (tss : List ℚ) (lag : Nat) : List Nat → List XQ × List XQ
  | [] => ([], [])
  | dim :: rest =>
    match mkStep tss lag dim with
    | none => (List.replicate (rest.length + 1) XQ.nan,
               List.replicate (rest.length + 1) XQ.nan)
    | some sd =>
      (caoEd sd :: (caoLoop tss lag rest).1,
       caoEdStar sd :: (caoLoop tss lag rest).2)

/-- embed_dim_cao, src/ts/_utils.py lines 402-464.  dims is the resolved
candidate-dimension list (a scalar argument is expanded by the source to
1..dims before the loop); sigma stands for the population standard deviation
of ts, consumed by the standardizer.  Returns the pair
(e1, e2) = (ed[1:] / ed[:-1], ed_star[1:] / ed_star[:-1]). -/
def embed_dim_cao (ts : List ℚ) (sigma : ℚ) (lag : Int) (dims : List Nat)
    (ts_scaled : Option (List ℚ)) : Except PyErr (List XQ × List XQ) :=
  if lag ≤ 0 then Except.error PyErr.valueError
  else
    Except.ok
      (List.zipWith xdiv
        (caoLoop (standardize_ts ts sigma ts_scaled) lag.toNat dims).1.tail
        (caoLoop (standardize_ts ts sigma ts_scaled) lag.toNat dims).1,
       List.zipWith xdiv
        (caoLoop (standardize_ts ts sigma ts_scaled) lag.toNat dims).2.tail
        (caoLoop (standardize_ts ts sigma ts_scaled) lag.toNat dims).2)

/-- Multiplication of an XQ value by a finite scalar (numpy semantics:
c * inf keeps or flips the sign with the sign of c, and 0 * inf = NaN). -/
def xscale (c : ℚ) : XQ → XQ
  | XQ.fin a => XQ.fin (c * a)
  | XQ.inf => if 0 < c then XQ.inf else if c < 0 then XQ.ninf else XQ.nan
  | XQ.ninf => if 0 < c then XQ.ninf else if c < 0 then XQ.inf else XQ.nan
  | XQ.nan => XQ.nan

/-- Classification of one point as a false neighbor at one candidate
dimension (src/ts/_utils.py lines 394-395):
crit_1 : emb_next_abs_diff[i] > rtol * dist_cur[i], or
crit_2 : dist_next[i] > atol * np.std(ts), where np.std(ts) is the population
standard deviation of the raw series (line 375), received here as tsStd. -/
def fnnIsFalse (sd : StepData) (rtol atol tsStd : ℚ) (i : Nat) : Bool :=
  xltB (xscale rtol (sd.distCur.getD i XQ.nan)) (XQ.fin (sd.extraDiff.getD i 0))
    || xltB (XQ.fin (atol * tsStd)) (sd.distNext.getD i XQ.nan)

/-- One profile entry of embed_dim_fnn (src/ts/_utils.py line 397): the mean
over all embedded points of the false-neighbor indicator. -/
def fnnEntry (sd : StepData) (rtol atol tsStd : ℚ) : ℚ :=
  (((List.range sd.embNext.length).map
      (fun i => if fnnIsFalse sd rtol atol tsStd i then (1 : ℚ) else 0)).sum)
    / sd.embNext.length

/-- The dimension loop of embed_dim_fnn (src/ts/_utils.py lines 377-397).
On an embedding failure the except branch executes ed[ind:] = np.nan
(line 385), but ed and ed_star are not defined in embed_dim_fnn — the
assignment raises a NameError that propagates out of the function, so the
loop is modelled as failing with PyErr.nameError there. -/
def fnnLoop (tss : List ℚ) (lag : Nat) (rtol atol tsStd : ℚ) :
    List Nat → Except PyErr (List ℚ)
  | [] => Except.ok []
  | dim :: rest =>
    match mkStep tss lag dim with
    | none => Except.error PyErr.nameError
    | some sd =>
      (fnnLoop tss lag rtol atol tsStd rest).map
        (fun l => fnnEntry sd rtol atol tsStd :: l)

/-- embed_dim_fnn, src/ts/_utils.py lines 350-399.  dims is the resolved
candidate-dimension list (a scalar argument is expanded by the source to
1..dims); sigma stands for the population standard deviation of the raw ts,
which the source uses both inside the StandardScaler and as
ts_std = np.std(ts) on line 375. -/
def embed_dim_fnn (ts : List ℚ) (sigma : ℚ) (lag : Int) (dims : List Nat)
    (rtol atol : ℚ) (ts_scaled : Option (List ℚ)) : Except PyErr (List ℚ) :=
  if lag ≤ 0 then Except.error PyErr.valueError
  else fnnLoop (standardize_ts ts sigma ts_scaled) lag.toNat rtol atol sigma dims

/-- Default rtol of embed_dim_fnn (src/ts/_utils.py line 353). -/
def fnnRtolDefault : ℚ := 10

/-- Default atol of embed_dim_fnn (src/ts/_utils.py line 354). -/
def fnnAtolDefault : ℚ := 2

/-- np.flatnonzero over a Boolean array: the indices holding true, ascending. -/
def flatnonzero (flags : List Bool) : List Nat :=
  (List.range flags.length).filter (fun i => flags.getD i false)

/-- Plateau search of ft_emb_dim_cao, src/ts/general.py lines 847-857: given
the E1 profile, take e1_abs_diff = np.abs(np.diff(e1)), find the first index
where it is at most tol_threshold (an empty index set raises IndexError,
caught and replaced by 0), and return that index plus one.  The
standardization and lag resolution of lines 833-845 do not influence this
value when the E1 profile is supplied, so the model takes the profile
directly. -/
def ft_emb_dim_cao (e1 : List XQ) (tol : ℚ) : Nat :=
  let diffs := List.zipWith xsub e1.tail e1
  let flags := (diffs.map xabs).map (fun v => xleB v (XQ.fin tol))
  (match flatnonzero flags with
   | [] => 0
   | i :: _ => i) + 1

/-- Heap value for the mutation model: a float vector, a float matrix, an
XQ vector or an XQ matrix. -/
inductive Val where
  | seq (l : List ℚ)
  | mat (m : List (List ℚ))
  | xseq (l : List XQ)
  | xmat (m : List (List XQ))
deriving DecidableEq, Repr

/-- Address-indexed heap of numpy arrays.  Allocation appends; an in-place
numpy write (masked or element assignment) replaces the value at its
address.  Computations that only read arrays or allocate fresh ones are kept
as pure values. -/
abbrev Store := List Val

/-- Allocation of a fresh array: returns the extended store and the address. -/
def alloc (st : Store) (v : Val) : Store × Nat := (st ++ [v], List.length st)

/-- In-place write at an address. -/
def writeAt (st : Store) (a : Nat) (v : Val) : Store := List.set st a v

/-- Read of the array at an address. -/
def readAt (st : Store) (a : Nat) : Option Val := st[a]?

/-- Store-level model of standardize_ts: aTs is the address of ts and aScaled
the optional address of ts_scaled.  The ts_scaled branch returns the ts
object itself (source line 66) without touching the heap; the computing
branch lets sklearn allocate a fresh result array (fit_transform copies; it
never writes its input). -/
def standardizeProg (st : Store) (aTs : Nat) (aScaled : Option Nat)
    (sigma : ℚ) : Option (Nat × Store) :=
  match aScaled with
  | some _ => some (aTs, st)
  | none =>
    match readAt st aTs with
    | some (Val.seq ts) =>
      let p := alloc st (Val.seq (scalerTransform ts sigma))
      some (p.2, p.1)
    | _ => none

/-- Store-level model of nn: scipy cdist allocates the distance matrix fresh,
then the masked assignment of line 343 overwrites that fresh matrix in
place — the one genuine in-place write of nn, targeting its own allocation,
never the input embedding. -/
def nnProg (st : Store) (aEmb : Nat) : Option ((List Nat × List XQ) × Store) :=
  match readAt st aEmb with
  | some (Val.mat e) =>
    let p := alloc st (Val.mat (distMatrix e))
    let st2 := writeAt p.1 p.2 (Val.xmat (clampMatrix (distMatrix e)))
    some (nnModel e, st2)
  | _ => none

/-- Store-level model of one iteration list of the embed_dim_fnn loop: each
successful iteration allocates a distance matrix, clamps it in place (inside
nn) and writes the profile entry into fnn_prop at address aProp; an embedding
failure raises (NameError) with no further writes.  The iteration values are
the (ind, dim) pairs of enumerate(dims). -/
def fnnProgLoop (tss : List ℚ) (lag : Nat) (rtol atol tsStd : ℚ)
    (aProp : Nat) : List (Nat × Nat) → Store → Except PyErr Unit × Store
  | [], st => (Except.ok (), st)
  | (ind, dim) :: rest, st =>
    match mkStep tss lag dim with
    | none => (Except.error PyErr.nameError, st)
    | some sd =>
      let p := alloc st (Val.mat (distMatrix sd.embCur))
      let st2 := writeAt p.1 p.2 (Val.xmat (clampMatrix (distMatrix sd.embCur)))
      let newProp :=
        match readAt st2 aProp with
        | some (Val.seq pr) => pr.set ind (fnnEntry sd rtol atol tsStd)
        | _ => []
      fnnProgLoop tss lag rtol atol tsStd aProp rest
        (writeAt st2 aProp (Val.seq newProp))

/-- Store-level model of embed_dim_fnn (src/ts/_utils.py lines 350-399):
standardization, allocation of fnn_prop = np.zeros(len(dims)), then the
dimension loop.  On the NameError of the except branch the partially filled
fnn_prop is abandoned and the error propagates. -/
def fnnProg (st : Store) (aTs : Nat) (aScaled : Option Nat) (sigma : ℚ)
    (lag : Int) (dims : List Nat) (rtol atol : ℚ) :
    Option (Except PyErr (List ℚ) × Store) :=
  match readAt st aTs with
  | some (Val.seq _) =>
    if lag ≤ 0 then some (Except.error PyErr.valueError, st)
    else
      match standardizeProg st aTs aScaled sigma with
      | none => none
      | some (aTss, st1) =>
        match readAt st1 aTss with
        | some (Val.seq tss) =>
          let p := alloc st1 (Val.seq (List.replicate dims.length 0))
          let r := fnnProgLoop tss lag.toNat rtol atol sigma p.2 dims.enum p.1
          match r.1 with
          | Except.error e => some (Except.error e, r.2)
          | Except.ok _ =>
            match readAt r.2 p.2 with
            | some (Val.seq pr) => some (Except.ok pr, r.2)
            | _ => none
        | _ => none
  | _ => none

/-- Store-level model of one iteration list of the embed_dim_cao loop: a
successful iteration allocates and clamps a distance matrix and writes the
two profile entries into ed and ed_star (addresses aEd, aEds); an embedding
failure overwrites the suffixes ed[ind:] and ed_star[ind:] with NaN and
breaks — all writes target the arrays the function allocated itself. -/
def caoProgLoop (tss : List ℚ) (lag : Nat) (aEd aEds : Nat) :
    List (Nat × Nat) → Store → Store
  | [], st => st
  | (ind, dim) :: rest, st =>
    match mkStep tss lag dim with
    | none =>
      let newEd :=
        match readAt st aEd with
        | some (Val.xseq l) => l.take ind ++ List.replicate (l.length - ind) XQ.nan
        | _ => []
      let st1 := writeAt st aEd (Val.xseq newEd)
      let newEds :=
        match readAt st1 aEds with
        | some (Val.xseq l) => l.take ind ++ List.replicate (l.length - ind) XQ.nan
        | _ => []
      writeAt st1 aEds (Val.xseq newEds)
    | some sd =>
      let p := alloc st (Val.mat (distMatrix sd.embCur))
      let st2 := writeAt p.1 p.2 (Val.xmat (clampMatrix (distMatrix sd.embCur)))
      let newEd :=
        match readAt st2 aEd with
        | some (Val.xseq l) => l.set ind (caoEd sd)
        | _ => []
      let st3 := writeAt st2 aEd (Val.xseq newEd)
      let newEds :=
        match readAt st3 aEds with
        | some (Val.xseq l) => l.set ind (caoEdStar sd)
        | _ => []
      caoProgLoop tss lag aEd aEds rest (writeAt st3 aEds (Val.xseq newEds))

/-- Store-level model of embed_dim_cao (src/ts/_utils.py lines 402-464):
standardization, allocation of the ed and ed_star arrays
(np.zeros((2, len(dims)))), the dimension loop, and the final pure slicing
ratios e1 and e2 (allocated fresh by numpy). -/
def caoProg (st : Store) (aTs : Nat) (aScaled : Option Nat) (sigma : ℚ)
    (lag : Int) (dims : List Nat) :
    Option (Except PyErr (List XQ × List XQ) × Store) :=
  match readAt st aTs with
  | some (Val.seq _) =>
    if lag ≤ 0 then some (Except.error PyErr.valueError, st)
    else
      match standardizeProg st aTs aScaled sigma with
      | none => none
      | some (aTss, st1) =>
        match readAt st1 aTss with
        | some (Val.seq tss) =>
          let p1 := alloc st1 (Val.xseq (List.replicate dims.length (XQ.fin 0)))
          let p2 := alloc p1.1 (Val.xseq (List.replicate dims.length (XQ.fin 0)))
          let st2 := caoProgLoop tss lag.toNat p1.2 p2.2 dims.enum p2.1
          match readAt st2 p1.2, readAt st2 p2.2 with
          | some (Val.xseq ed), some (Val.xseq eds) =>
            some (Except.ok (List.zipWith xdiv ed.tail ed,
                             List.zipWith xdiv eds.tail eds), st2)
          | _, _ => none
        | _ => none
  | _ => none

/-- Consecutive plateau test of the C10 claim for the E1 profile: whether
|E1[i+1] - E1[i]| is at most the tolerance (false on NaN entries, matching
the numpy comparison). -/
def e1PlateauFlag (e1 : List XQ) (tol : ℚ) (i : Nat) : Bool :=
  xleB (xabs (xsub (e1.getD (i + 1) XQ.nan) (e1.getD i XQ.nan))) (XQ.fin tol)

/-- Concrete per-dimension data of the series [0, 1, 3, 6] at lag 1 and
candidate dimension 1, used as an evaluation point for theorems about
mkStep. -/
def stepWitness : StepData :=
  ⟨[[0, 1], [1, 3], [3, 6]], [[1], [3], [6]], [0, 1, 3], [1, 0, 1],
   [XQ.fin 2, XQ.fin 2, XQ.fin 3], [1, 1, 2],
   [XQ.fin 2, XQ.fin 2, XQ.fin 3]⟩

/-- E value of the claimed Cao profile formula at one candidate dimension:
the mean over points of dist_{d+1} / dist_d, or NaN when the embedding at
that dimension fails. -/
def caoEdAt (tss : List ℚ) (lag dim : Nat) : XQ :=
  match mkStep tss lag dim with
  | some sd => caoEd sd
  | none => XQ.nan

/-- E star value of the claimed Cao profile formula at one candidate
dimension: the mean absolute extra-coordinate difference, or NaN when the
embedding at that dimension fails. -/
def caoEdStarAt (tss : List ℚ) (lag dim : Nat) : XQ :=
  match mkStep tss lag dim with
  | some sd => caoEdStar sd
  | none => XQ.nan

/- ===================== theorems ===================== -/

theorem getD_map_range {α : Type} (f : Nat → α) {n i : Nat} (d : α) (h : i < n) :
    ((List.range n).map f).getD i d = f i := by
  rw [List.getD_eq_getElem?_getD, List.getElem?_map, List.getElem?_range h]
  rfl

theorem getD_map {α β : Type} (l : List α) (f : α → β) {i : Nat} (d : β)
    (d2 : α) (h : i < l.length) : (l.map f).getD i d = f (l.getD i d2) := by
  rw [List.getD_eq_getElem?_getD, List.getElem?_map,
    List.getElem?_eq_getElem h, List.getD_eq_getElem?_getD,
    List.getElem?_eq_getElem h]
  rfl

theorem getD_zipWith {α β γ : Type} (f : α → β → γ) (l : List α) (m : List β)
    {i : Nat} (d : γ) (d1 : α) (d2 : β) (h1 : i < l.length) (h2 : i < m.length) :
    (List.zipWith f l m).getD i d = f (l.getD i d1) (m.getD i d2) := by
  rw [List.getD_eq_getElem?_getD, List.getElem?_zipWith,
    List.getElem?_eq_getElem h1, List.getElem?_eq_getElem h2,
    List.getD_eq_getElem?_getD, List.getElem?_eq_getElem h1,
    List.getD_eq_getElem?_getD, List.getElem?_eq_getElem h2]
  rfl

theorem getD_tail {α : Type} (l : List α) (i : Nat) (d : α) :
    l.tail.getD i d = l.getD (i + 1) d := by
  cases l with
  | nil => rfl
  | cons x t => rfl

theorem sum_map_affine (xs : List ℚ) (a b : ℚ) :
    (xs.map (fun v => v * a + b)).sum = xs.sum * a + xs.length * b := by
  induction xs with
  | nil => simp
  | cons x t ih =>
    simp only [List.map_cons, List.sum_cons, ih, List.length_cons]
    push_cast
    ring

theorem sum_map_mul_right {α : Type} (xs : List α) (f : α → ℚ) (c : ℚ) :
    (xs.map (fun v => f v * c)).sum = (xs.map f).sum * c := by
  induction xs with
  | nil => simp
  | cons x t ih =>
    simp only [List.map_cons, List.sum_cons, ih]
    ring

theorem popVar_nil : popVar [] = 0 := by
  simp [popVar]

theorem scaler_eq_affine (xs : List ℚ) {sigma : ℚ} (h : sigma ≠ 0) :
    scalerTransform xs sigma
      = xs.map (fun v => v * (1 / sigma) + -(qmean xs / sigma)) := by
  unfold scalerTransform
  rw [if_neg h]
  apply List.map_congr_left
  intro v _
  field_simp
  ring

theorem sum_scaler (xs : List ℚ) {sigma : ℚ} (hs : sigma ≠ 0)
    (hn : (xs.length : ℚ) ≠ 0) : (scalerTransform xs sigma).sum = 0 := by
  rw [scaler_eq_affine xs hs, sum_map_affine]
  rw [qmean]
  field_simp
  ring

theorem qmean_scaler (xs : List ℚ) {sigma : ℚ} (hs : sigma ≠ 0)
    (hn : (xs.length : ℚ) ≠ 0) : qmean (scalerTransform xs sigma) = 0 := by
  rw [qmean, sum_scaler xs hs hn, zero_div]

theorem popVar_scaler (xs : List ℚ) {sigma : ℚ} (hs : sigma ≠ 0)
    (hn : (xs.length : ℚ) ≠ 0) :
    popVar (scalerTransform xs sigma) = popVar xs / sigma ^ 2 := by
  unfold popVar
  rw [qmean_scaler xs hs hn]
  have hlen : ((scalerTransform xs sigma).length : ℚ) = (xs.length : ℚ) := by
    simp [scalerTransform]
  rw [hlen]
  have hmap : (scalerTransform xs sigma).map (fun v => (v - 0) ^ 2)
      = xs.map (fun v => (v - qmean xs) ^ 2 * (1 / sigma ^ 2)) := by
    unfold scalerTransform
    rw [if_neg hs, List.map_map]
    apply List.map_congr_left
    intro v _
    simp only [Function.comp]
    rw [sub_zero, div_pow]
    ring
  rw [hmap, sum_map_mul_right, mul_one_div, div_div, div_div,
    mul_comm (sigma ^ 2)]

theorem scalerTransform_sigma_one (ys : List ℚ) (h : qmean ys = 0) :
    scalerTransform ys 1 = ys := by
  unfold scalerTransform
  rw [h, if_neg (one_ne_zero : (1 : ℚ) ≠ 0)]
  simp

/-- C8: standardize_ts is idempotent on any sequence with positive variance:
the standardized sequence has population variance exactly 1 (and mean 0), so
re-standardizing it (with its standard deviation, 1) returns it unchanged —
exact equality in the rational model, hence elementwise within any tolerance
including 1e-9.  sigma is the population standard deviation of xs,
characterized by sigma ^ 2 = popVar xs. -/
theorem standardize_idempotent (xs : List ℚ) (sigma : ℚ)
    (h1 : 0 < sigma) (h2 : sigma ^ 2 = popVar xs) :
    popVar (standardize_ts xs sigma none) = 1 ∧
    standardize_ts (standardize_ts xs sigma none) 1 none
      = standardize_ts xs sigma none := by
  have hs : sigma ≠ 0 := ne_of_gt h1
  have hvar : popVar xs ≠ 0 := by
    rw [← h2]
    positivity
  have hn : (xs.length : ℚ) ≠ 0 := by
    intro h
    apply hvar
    rw [popVar, h, div_zero]
  have hv1 : popVar (scalerTransform xs sigma) = 1 := by
    rw [popVar_scaler xs hs hn, ← h2, div_self (pow_ne_zero 2 hs)]
  refine ⟨hv1, ?_⟩
  show scalerTransform (scalerTransform xs sigma) 1 = scalerTransform xs sigma
  exact scalerTransform_sigma_one _ (qmean_scaler xs hs hn)

/-- Witness for C8 at the concrete sequence [0, 0, 1, 1], whose population
variance is 1/4 and standard deviation 1/2. -/
theorem standardize_idempotent_witness :
    ((0 : ℚ) < 1 / 2 ∧ (1 / 2 : ℚ) ^ 2 = popVar [0, 0, 1, 1]) ∧
    (popVar (standardize_ts [0, 0, 1, 1] (1 / 2) none) = 1 ∧
     standardize_ts (standardize_ts [0, 0, 1, 1] (1 / 2) none) 1 none
       = standardize_ts [0, 0, 1, 1] (1 / 2) none) :=
  ⟨⟨by norm_num, by with_unfolding_all decide⟩,
   standardize_idempotent [0, 0, 1, 1] (1 / 2) (by norm_num)
     (by with_unfolding_all decide)⟩

/-- C2: the short-circuit branch of standardize_ts is broken in the source:
called with a precomputed standardized sequence it returns the raw ts
(src/ts/_utils.py line 66 reads return ts), not ts_scaled.  At ts = [0, 2]
with its correct precomputed standardization [-1, 1], the call returns
[0, 2], which differs from the precomputed sequence — contradicting the
documented short-circuit contract that every caller relies on (callers
rebind ts_scaled to the returned value and assume mean 0 and variance 1,
e.g. src/ts/general.py lines 772-784 and src/ts/_utils.py lines 252-258). -/
theorem standardize_ts_returns_raw_on_precomputed :
    standardize_ts [0, 2] 1 (some [-1, 1]) = [0, 2] ∧
    ([0, 2] : List ℚ) ≠ [-1, 1] := by
  exact ⟨rfl, by with_unfolding_all decide⟩

/-- C4 counterexample: on the zero-variance sequence [5, 5, 5] the source
raises nothing: sklearn StandardScaler replaces the zero scale by 1 and
standardize_ts silently returns the all-zero sequence (a normal value, with
no inf or NaN — the rational result type cannot even hold one), contradicting
the claim that the call fails with an invalid-input error. -/
theorem standardize_ts_silent_on_zero_variance :
    popVar [5, 5, 5] = 0 ∧ standardize_ts [5, 5, 5] 0 none = [0, 0, 0] := by
  exact ⟨by with_unfolding_all rfl, by with_unfolding_all rfl⟩

/-- C4 amended: for every constant (zero-variance) sequence, standardize_ts
called without a precomputed sequence returns the all-zero sequence of the
same length — silently, with no error and no inf or NaN entries (sklearn
centers the data and divides by the replaced scale 1). -/
theorem standardize_ts_zero_variance_returns_zeros (n : Nat) (c : ℚ) :
    popVar (List.replicate n c) = 0 ∧
    standardize_ts (List.replicate n c) 0 none = List.replicate n 0 := by
  have hmean : n ≠ 0 → qmean (List.replicate n c) = c := by
    intro hn
    rw [qmean, List.sum_replicate, List.length_replicate, nsmul_eq_mul,
      mul_comm, mul_div_assoc, div_self (by exact_mod_cast hn), mul_one]
  constructor
  · rcases Nat.eq_zero_or_pos n with h0 | hpos
    · subst h0
      simp [popVar_nil]
    · unfold popVar
      rw [hmean (by omega)]
      simp
  · rcases Nat.eq_zero_or_pos n with h0 | hpos
    · subst h0
      rfl
    · show scalerTransform (List.replicate n c) 0 = List.replicate n 0
      unfold scalerTransform
      rw [hmean (by omega), if_pos rfl]
      simp [List.map_replicate]

/-- C1: on an embedding failure inside the dimension loop, embed_dim_fnn does
not mark the remaining profile entries NaN and return — the except branch
assigns to ed and ed_star (src/ts/_utils.py lines 385-386), names that
embed_dim_fnn never defines (they belong to embed_dim_cao), so the branch
raises a NameError that propagates out of the function.  Concretely: for the
length-2 series [0, 1] (standard deviation 1/2) with lag 1 and
dims = [1, 2], dimension 2 needs an embedding of dimension 3, which fails,
and the call errors instead of returning [1, NaN]. -/
theorem fnn_nameerror_at_embed_failure :
    embed_dim_fnn [0, 1] (1 / 2) 1 [1, 2] 10 2 none
      = Except.error PyErr.nameError := by
  with_unfolding_all rfl

/-- C5 counterexample: on the constant series [1, 1, 1, 1] (standardized to
all zeros) with lag 1 at candidate dimension 1, every 1-dimensional distance
is clamped to +inf by the duplicate rule, so the recursion
dist_next = max(dist_cur, |extra difference|) yields +inf at point 0, while
the Chebyshev distance recomputed from scratch in the 2-dimensional embedding
between point 0 and its assigned neighbor is 0 — the two disagree. -/
theorem cao_dist_recursion_breaks_on_duplicates :
    (mkStep (standardize_ts [1, 1, 1, 1] 0 none) 1 1).map
      (fun sd => decide (sd.distNext.getD 0 XQ.nan
        = XQ.fin (cheb (sd.embNext.getD 0 [])
            (sd.embNext.getD (sd.nnInds.getD 0 0) []))))
      = some false := by
  with_unfolding_all rfl

theorem filter_range_nil (p : Nat → Bool) (n : Nat) :
    (List.range n).filter p = [] ↔ ∀ i, i < n → p i = false := by
  rw [List.filter_eq_nil_iff]
  constructor
  · intro h i hi
    have := h i (List.mem_range.mpr hi)
    simpa using this
  · intro h a ha
    have := h a (List.mem_range.mp ha)
    simp [this]

theorem filter_range_head (p : Nat → Bool) (n : Nat) :
    ∀ (i : Nat) (l : List Nat), (List.range n).filter p = i :: l →
    p i = true ∧ i < n ∧ ∀ j, j < i → p j = false := by
  induction n with
  | zero => intro i l h; simp at h
  | succ m ih =>
    intro i l h
    rw [List.range_succ, List.filter_append] at h
    cases hf : (List.range m).filter p with
    | nil =>
      rw [hf, List.nil_append, List.filter_singleton] at h
      by_cases hp : p m = true
      · rw [hp, cond_true] at h
        injection h with h1 h2
        subst h1
        exact ⟨hp, Nat.lt_succ_self m, fun j hj =>
          (filter_range_nil p m).mp hf j hj⟩
      · rw [Bool.not_eq_true] at hp
        rw [hp, cond_false] at h
        exact absurd h.symm (List.cons_ne_nil i l)
    | cons a t =>
      rw [hf, List.cons_append] at h
      injection h with h1 h2
      subst h1
      obtain ⟨hp, hlt, hmin⟩ := ih a t hf
      exact ⟨hp, Nat.lt_succ_of_lt hlt, hmin⟩

theorem ft_flags_spec (e1 : List XQ) (tol : ℚ) :
    (((List.zipWith xsub e1.tail e1).map xabs).map
        (fun v => xleB v (XQ.fin tol))).length = e1.length - 1 ∧
    ∀ i, i + 1 < e1.length →
      (((List.zipWith xsub e1.tail e1).map xabs).map
          (fun v => xleB v (XQ.fin tol))).getD i false = e1PlateauFlag e1 tol i := by
  have hlen : (List.zipWith xsub e1.tail e1).length = e1.length - 1 := by
    rw [List.length_zipWith, List.length_tail]
    omega
  constructor
  · simp [hlen]
  · intro i hi
    have h1 : i < (List.zipWith xsub e1.tail e1).length := by omega
    have h2 : i < ((List.zipWith xsub e1.tail e1).map xabs).length := by
      simpa using h1
    rw [getD_map _ _ _ XQ.nan h2, getD_map _ _ _ XQ.nan h1,
      getD_zipWith xsub _ _ _ XQ.nan XQ.nan (by rw [List.length_tail]; omega)
        (by omega), getD_tail]
    rfl

/-- C10: ft_emb_dim_cao (src/ts/general.py lines 813-857) always returns a
positive integer: when some consecutive pair of E1 values differs by at most
tol_threshold it returns i + 1 for the smallest such index i, and when the
plateau search finds nothing (the flatnonzero indexing raises IndexError,
silently caught) it falls back to returning 0 + 1 = 1. -/
theorem ft_emb_dim_cao_first_plateau (e1 : List XQ) (tol : ℚ) :
    1 ≤ ft_emb_dim_cao e1 tol ∧
    (∀ i, i + 1 < e1.length → e1PlateauFlag e1 tol i = true →
      (e1PlateauFlag e1 tol (ft_emb_dim_cao e1 tol - 1) = true ∧
       ∀ j, j < ft_emb_dim_cao e1 tol - 1 → e1PlateauFlag e1 tol j = false)) ∧
    ((∀ i, i + 1 < e1.length → e1PlateauFlag e1 tol i = false) →
      ft_emb_dim_cao e1 tol = 1) := by
  obtain ⟨hlen, hflag⟩ := ft_flags_spec e1 tol
  set flags := (((List.zipWith xsub e1.tail e1).map xabs).map
    (fun v => xleB v (XQ.fin tol))) with hflags
  have hunfold : ft_emb_dim_cao e1 tol =
      (match flatnonzero flags with
       | [] => 0
       | i :: _ => i) + 1 := rfl
  refine ⟨?_, ?_, ?_⟩
  · rw [hunfold]
    exact Nat.le_add_left 1 _
  · intro i hi hp
    have hne : flatnonzero flags ≠ [] := by
      intro h
      have := (filter_range_nil _ _).mp h i (by omega)
      rw [hflag i hi] at this
      rw [this] at hp
      exact Bool.false_ne_true hp
    cases hnz : flatnonzero flags with
    | nil => exact absurd hnz hne
    | cons a t =>
      obtain ⟨hpa, halt, hmin⟩ := filter_range_head _ _ a t hnz
      have hres : ft_emb_dim_cao e1 tol = a + 1 := by
        rw [hunfold, hnz]
      rw [hres]
      have ha1 : a + 1 < e1.length := by omega
      constructor
      · have := hflag a (by omega)
        rw [Nat.add_sub_cancel, ← this]
        rw [List.getD_eq_getElem?_getD] at hpa ⊢
        exact hpa
      · intro j hj
        have hjlt : j < a := by omega
        have := hmin j hjlt
        rw [hflag j (by omega)] at this
        exact this
  · intro hall
    have : flatnonzero flags = [] := by
      apply (filter_range_nil _ _).mpr
      intro i hi
      rw [hflag i (by omega)]
      exact hall i (by omega)
    rw [hunfold, this]

/-- Witness for C10 at the concrete profile [1, 5, 5] with tolerance 1/20:
the first (and only) plateau index is 1, so the function returns 2, the
plateau test holds at index 2 - 1 = 1 and fails below it. -/
theorem ft_emb_dim_cao_first_plateau_witness :
    1 ≤ ft_emb_dim_cao [XQ.fin 1, XQ.fin 5, XQ.fin 5] (1 / 20) ∧
    (e1PlateauFlag [XQ.fin 1, XQ.fin 5, XQ.fin 5] (1 / 20)
        (ft_emb_dim_cao [XQ.fin 1, XQ.fin 5, XQ.fin 5] (1 / 20) - 1) = true ∧
     ∀ j, j < ft_emb_dim_cao [XQ.fin 1, XQ.fin 5, XQ.fin 5] (1 / 20) - 1 →
       e1PlateauFlag [XQ.fin 1, XQ.fin 5, XQ.fin 5] (1 / 20) j = false) :=
  ⟨(ft_emb_dim_cao_first_plateau [XQ.fin 1, XQ.fin 5, XQ.fin 5] (1 / 20)).1,
   (ft_emb_dim_cao_first_plateau [XQ.fin 1, XQ.fin 5, XQ.fin 5] (1 / 20)).2.1 1
     (by with_unfolding_all decide) (by with_unfolding_all decide)⟩

theorem xltB_irrefl (a : XQ) : xltB a a = false := by
  cases a <;> simp [xltB]

theorem xltB_trans {a b c : XQ} (h1 : xltB a b = true) (h2 : xltB b c = true) :
    xltB a c = true := by
  cases a <;> cases b <;> cases c <;> simp_all [xltB]
  all_goals exact lt_trans h1 h2

theorem xleB_lt_trans {a b c : XQ} (h1 : xleB a b = true)
    (h2 : xltB b c = true) : xltB a c = true := by
  cases a <;> cases b <;> cases c <;> simp_all [xltB, xleB]
  all_goals exact lt_of_le_of_lt h1 h2


theorem xleB_of_not_lt {a b : XQ} (ha : a ≠ XQ.nan) (hb : b ≠ XQ.nan)
    (h : xltB a b = false) : xleB b a = true := by
  cases a <;> cases b <;> simp_all [xltB, xleB]

theorem argminAux_min : ∀ (rest : List XQ) (i b : Nat) (bv : XQ),
    bv ≠ XQ.nan → (∀ v ∈ rest, v ≠ XQ.nan) →
    xltB bv (argminAux rest i b bv).2 = false ∧
    ∀ v ∈ rest, xltB v (argminAux rest i b bv).2 = false := by
  intro rest
  induction rest with
  | nil =>
    intro i b bv hbv hrest
    exact ⟨xltB_irrefl bv, fun v hv => absurd hv (List.not_mem_nil v)⟩
  | cons v t ih =>
    intro i b bv hbv hall
    have hv : v ≠ XQ.nan := hall v (List.mem_cons_self v t)
    have ht : ∀ u ∈ t, u ≠ XQ.nan := fun u hu => hall u (List.mem_cons_of_mem v hu)
    by_cases hc : xltB v bv = true
    · rw [argminAux, if_pos hc]
      obtain ⟨h1, h2⟩ := ih (i + 1) i v hv ht
      have hbw : xltB bv (argminAux t (i + 1) i v).2 = false := by
        cases hx : xltB bv (argminAux t (i + 1) i v).2 with
        | false => rfl
        | true =>
          have := xltB_trans hc hx
          rw [h1] at this
          exact absurd this (by simp)
      exact ⟨hbw, fun u hu => by
        rcases List.mem_cons.mp hu with h | h
        · rw [h]; exact h1
        · exact h2 u h⟩
    · rw [argminAux, if_neg hc]
      rw [Bool.not_eq_true] at hc
      obtain ⟨h1, h2⟩ := ih (i + 1) b bv hbv ht
      have hvw : xltB v (argminAux t (i + 1) b bv).2 = false := by
        cases hx : xltB v (argminAux t (i + 1) b bv).2 with
        | false => rfl
        | true =>
          have hle : xleB bv v = true := xleB_of_not_lt hv hbv hc
          have := xleB_lt_trans hle hx
          rw [h1] at this
          exact absurd this (by simp)
      exact ⟨h1, fun u hu => by
        rcases List.mem_cons.mp hu with h | h
        · rw [h]; exact hvw
        · exact h2 u h⟩

theorem argminAux_at : ∀ (rest : List XQ) (i b : Nat) (bv : XQ),
    ((argminAux rest i b bv).1 = b ∧ (argminAux rest i b bv).2 = bv) ∨
    (∃ j, j < rest.length ∧ (argminAux rest i b bv).1 = i + j ∧
      (argminAux rest i b bv).2 = rest.getD j XQ.nan) := by
  intro rest
  induction rest with
  | nil => intro i b bv; left; exact ⟨rfl, rfl⟩
  | cons v t ih =>
    intro i b bv
    by_cases hc : xltB v bv = true
    · rw [argminAux, if_pos hc]
      rcases ih (i + 1) i v with ⟨h1, h2⟩ | ⟨j, hj, h1, h2⟩
      · right
        exact ⟨0, Nat.succ_pos _, by rw [h1]; omega, h2⟩
      · right
        refine ⟨j + 1, by simpa using Nat.succ_lt_succ hj, by rw [h1]; omega, ?_⟩
        rw [h2]
        rfl
    · rw [argminAux, if_neg hc]
      rcases ih (i + 1) b bv with ⟨h1, h2⟩ | ⟨j, hj, h1, h2⟩
      · left; exact ⟨h1, h2⟩
      · right
        refine ⟨j + 1, by simpa using Nat.succ_lt_succ hj, by rw [h1]; omega, ?_⟩
        rw [h2]
        rfl

theorem argminRow_spec (l : List XQ) (hne : l ≠ [])
    (hnn : ∀ v ∈ l, v ≠ XQ.nan) :
    argminRow l < l.length ∧
    ∀ j, j < l.length →
      xltB (l.getD j XQ.nan) (l.getD (argminRow l) XQ.nan) = false := by
  cases l with
  | nil => exact absurd rfl hne
  | cons v t =>
    have hv : v ≠ XQ.nan := hnn v (List.mem_cons_self v t)
    have ht : ∀ u ∈ t, u ≠ XQ.nan := fun u hu => hnn u (List.mem_cons_of_mem v hu)
    obtain ⟨hminv, hminrest⟩ := argminAux_min t 1 0 v hv ht
    have hval : (v :: t).getD (argminRow (v :: t)) XQ.nan
        = (argminAux t 1 0 v).2 := by
      show (v :: t).getD (argminAux t 1 0 v).1 XQ.nan = _
      rcases argminAux_at t 1 0 v with ⟨h1, h2⟩ | ⟨j, hj, h1, h2⟩
      · rw [h1, h2]
        rfl
      · rw [h1, h2]
        have : 1 + j = j + 1 := by omega
        rw [this]
        rw [List.getD_cons_succ]
    constructor
    · show (argminAux t 1 0 v).1 < (v :: t).length
      rcases argminAux_at t 1 0 v with ⟨h1, _⟩ | ⟨j, hj, h1, _⟩
      · rw [h1]
        simp
      · rw [h1, List.length_cons]
        omega
    · intro j hj
      show xltB _ ((v :: t).getD (argminRow (v :: t)) XQ.nan) = false
      rw [hval]
      cases j with
      | zero => exact hminv
      | succ k =>
        have hk : k < t.length := by
          rw [List.length_cons] at hj
          omega
        rw [List.getD_cons_succ]
        have hmem : t.getD k XQ.nan ∈ t := by
          rw [List.getD_eq_getElem?_getD, List.getElem?_eq_getElem hk]
          exact List.getElem_mem hk
        exact hminrest _ hmem

theorem le_foldl_max (l : List ℚ) : ∀ (a : ℚ), a ≤ l.foldl max a := by
  induction l with
  | nil => intro a; exact le_refl a
  | cons x t ih => intro a; exact le_trans (le_max_left a x) (ih (max a x))

theorem cheb_nonneg (x y : List ℚ) : 0 ≤ cheb x y := le_foldl_max _ 0

theorem foldl_max_zip_self (x : List ℚ) : ∀ (c : ℚ), 0 ≤ c →
    (List.zipWith (fun a b => |a - b|) x x).foldl max c = c := by
  induction x with
  | nil => intro c _; rfl
  | cons a t ih =>
    intro c hc
    simp only [List.zipWith_cons_cons, List.foldl_cons]
    rw [sub_self, abs_zero, max_eq_left hc]
    exact ih c hc

theorem cheb_self (x : List ℚ) : cheb x x = 0 :=
  foldl_max_zip_self x 0 le_rfl

theorem clampDup_ne_nan (d : ℚ) : clampDup d ≠ XQ.nan := by
  unfold clampDup
  by_cases h : |d| ≤ dupTol
  · rw [if_pos h]; intro hx; exact XQ.noConfusion hx
  · rw [if_neg h]; intro hx; exact XQ.noConfusion hx

theorem clampDup_fin {d q : ℚ} (h : clampDup d = XQ.fin q) :
    q = d ∧ ¬ |d| ≤ dupTol := by
  unfold clampDup at h
  by_cases hd : |d| ≤ dupTol
  · rw [if_pos hd] at h
    exact absurd h (by intro hx; exact XQ.noConfusion hx)
  · rw [if_neg hd] at h
    injection h with h1
    exact ⟨h1.symm, hd⟩

theorem dm_length (e : List (List ℚ)) :
    (clampMatrix (distMatrix e)).length = e.length := by
  simp [clampMatrix, distMatrix]

theorem dm_row (e : List (List ℚ)) {r : Nat} (hr : r < e.length) :
    (clampMatrix (distMatrix e)).getD r []
      = (distRow e (e.getD r [])).map clampDup := by
  unfold clampMatrix distMatrix
  rw [List.map_map]
  exact getD_map e _ _ [] hr

theorem dm_row_length (e : List (List ℚ)) {r : Nat} (hr : r < e.length) :
    ((clampMatrix (distMatrix e)).getD r []).length = e.length := by
  rw [dm_row e hr]
  simp [distRow]

theorem dm_row_entry (e : List (List ℚ)) {r c : Nat} (hr : r < e.length)
    (hc : c < e.length) :
    ((clampMatrix (distMatrix e)).getD r []).getD c XQ.nan
      = clampDup (cheb (e.getD r []) (e.getD c [])) := by
  rw [dm_row e hr]
  unfold distRow
  rw [List.map_map]
  exact getD_map e _ _ [] hc

theorem dm_row_ne_nan (e : List (List ℚ)) {r : Nat} (hr : r < e.length) :
    ∀ v ∈ (clampMatrix (distMatrix e)).getD r [], v ≠ XQ.nan := by
  rw [dm_row e hr]
  intro v hv
  obtain ⟨d, _, hd⟩ := List.mem_map.mp hv
  rw [← hd]
  exact clampDup_ne_nan d

theorem nn_inds_getD (e : List (List ℚ)) {i : Nat} (hi : i < e.length) :
    (nnModel e).1.getD i 0
      = argminRow ((clampMatrix (distMatrix e)).getD i []) := by
  show ((clampMatrix (distMatrix e)).map argminRow).getD i 0 = _
  exact getD_map _ _ _ [] (by rw [dm_length]; exact hi)

theorem nn_dists_getD (e : List (List ℚ)) {i : Nat} (hi : i < e.length) :
    (nnModel e).2.getD i XQ.nan
      = xget (clampMatrix (distMatrix e)) ((nnModel e).1.getD i 0) i := by
  show ((List.range e.length).map _).getD i XQ.nan = _
  exact getD_map_range _ _ hi

/-- C3 counterexample: on the two-point embedding [[0], [0]] (two exact
duplicates), every pairwise distance is clamped to +inf, the row-wise argmin
returns index 0 for both rows, and so nn_inds[0] = 0 — the nearest-neighbor
index equals the point's own index, falsifying the unconditional invariant
nn_inds[i] ≠ i. -/
theorem nn_self_index_on_all_duplicates :
    (nnModel [[(0 : ℚ)], [0]]).1 = [0, 0] := by
  with_unfolding_all rfl

/-- C3 amended: whenever at least one other point lies at Chebyshev distance
above the duplicate tolerance 1e-8 from point i, the nearest-neighbor index
of i differs from i; and (unconditionally) a finite returned neighbor
distance always exceeds the tolerance — a distance that is zero (or within
1e-8 of it) is never returned, because such entries are overwritten with
+inf before the argmin.  The exception — visible in the counterexample — is
the exhaustion case where every other point is a near-duplicate of point i:
there the whole row is +inf and numpy argmin falls back to index 0. -/
theorem nn_distinct_index_of_nondup (e : List (List ℚ)) (i : Nat)
    (hcard : 2 ≤ e.length) (hi : i < e.length)
    (hex : ∃ j, j < e.length ∧ dupTol < cheb (e.getD i []) (e.getD j [])) :
    (nnModel e).1.getD i 0 ≠ i ∧
    ∀ q, (nnModel e).2.getD i XQ.nan = XQ.fin q → dupTol < q := by
  obtain ⟨j0, hj0, hd0⟩ := hex
  have hrowlen := dm_row_length e hi
  have hrowne : (clampMatrix (distMatrix e)).getD i [] ≠ [] := by
    intro h
    rw [h] at hrowlen
    simp at hrowlen
    omega
  obtain ⟨hrlt, hrmin⟩ := argminRow_spec _ hrowne (dm_row_ne_nan e hi)
  have hr := nn_inds_getD e hi
  have hfin : ((clampMatrix (distMatrix e)).getD i []).getD j0 XQ.nan
      = XQ.fin (cheb (e.getD i []) (e.getD j0 [])) := by
    rw [dm_row_entry e hi hj0]
    unfold clampDup
    rw [if_neg (by
      rw [abs_of_nonneg (cheb_nonneg _ _)]
      exact not_le.mpr hd0)]
  constructor
  · intro hcontra
    have hai : argminRow ((clampMatrix (distMatrix e)).getD i []) = i :=
      hr.symm.trans hcontra
    have hji := hrmin j0 (by rw [hrowlen]; exact hj0)
    rw [hai, dm_row_entry e hi hi, cheb_self, hfin] at hji
    have hzero : clampDup 0 = XQ.inf := by
      unfold clampDup
      rw [if_pos (by rw [abs_zero]; norm_num [dupTol])]
    rw [hzero] at hji
    exact absurd hji (by simp [xltB])
  · intro q hq
    rw [nn_dists_getD e hi, hr] at hq
    have hrlen : argminRow ((clampMatrix (distMatrix e)).getD i []) < e.length := by
      rw [← hrowlen]
      exact hrlt
    unfold xget at hq
    rw [dm_row_entry e hrlen hi] at hq
    obtain ⟨hqd, hnle⟩ := clampDup_fin hq
    rw [abs_of_nonneg (cheb_nonneg _ _)] at hnle
    rw [hqd]
    exact not_le.mp hnle

/-- Witness for C3 at the embedding [[0], [1]]: point 1 lies at distance 1
from point 0, so the hypotheses hold at i = 0, the neighbor index is not 0,
and any finite returned distance exceeds the duplicate tolerance. -/
theorem nn_distinct_index_of_nondup_witness :
    (2 ≤ ([[(0 : ℚ)], [1]] : List (List ℚ)).length ∧
     dupTol < cheb (([[(0 : ℚ)], [1]] : List (List ℚ)).getD 0 [])
       (([[(0 : ℚ)], [1]] : List (List ℚ)).getD 1 [])) ∧
    ((nnModel [[(0 : ℚ)], [1]]).1.getD 0 0 ≠ 0 ∧
     ∀ q, (nnModel [[(0 : ℚ)], [1]]).2.getD 0 XQ.nan = XQ.fin q → dupTol < q) :=
  ⟨⟨by norm_num, by with_unfolding_all decide⟩,
   nn_distinct_index_of_nondup [[(0 : ℚ)], [1]] 0 (by norm_num)
     (by norm_num) ⟨1, by norm_num, by with_unfolding_all decide⟩⟩

theorem foldl_max_comm (t : List ℚ) : ∀ (a b : ℚ),
    t.foldl max (max a b) = max a (t.foldl max b) := by
  induction t with
  | nil => intro a b; rfl
  | cons x s ih =>
    intro a b
    show s.foldl max (max (max a b) x) = max a (s.foldl max (max b x))
    rw [max_assoc, ih a (max b x)]

theorem cheb_cons (a b : ℚ) (x y : List ℚ) :
    cheb (a :: x) (b :: y) = max |a - b| (cheb x y) := by
  unfold cheb
  show (List.zipWith (fun u v => |u - v|) x y).foldl max (max 0 |a - b|) = _
  rw [max_comm 0 |a - b|, foldl_max_comm]

theorem cheb_comm (x y : List ℚ) : cheb x y = cheb y x := by
  unfold cheb
  rw [List.zipWith_comm_of_comm]
  intro a b
  exact abs_sub_comm a b

theorem headD_cons_tail {α : Type} (l : List α) (d : α) (h : l ≠ []) :
    l.headD d :: l.tail = l := by
  cases l with
  | nil => exact absurd rfl h
  | cons x t => rfl

theorem nn_dists_length (e : List (List ℚ)) : (nnModel e).2.length = e.length := by
  simp [nnModel]

theorem mkStep_eq (tss : List ℚ) (lag dim : Nat) (sd : StepData)
    (h : mkStep tss lag dim = some sd) :
    ∃ en, embed_ts tss lag (dim + 1) = some en ∧
      sd = ⟨en, en.map (fun r => r.tail), en.map (fun r => r.headD 0),
        (nnModel (en.map (fun r => r.tail))).1,
        (nnModel (en.map (fun r => r.tail))).2,
        (List.range en.length).map (fun i =>
          |(en.map (fun r => r.headD 0)).getD i 0 -
            (en.map (fun r => r.headD 0)).getD
              ((nnModel (en.map (fun r => r.tail))).1.getD i 0) 0|),
        List.zipWith xmax (nnModel (en.map (fun r => r.tail))).2
          (((List.range en.length).map (fun i =>
            |(en.map (fun r => r.headD 0)).getD i 0 -
              (en.map (fun r => r.headD 0)).getD
                ((nnModel (en.map (fun r => r.tail))).1.getD i 0) 0|)).map
            XQ.fin)⟩ := by
  unfold mkStep at h
  cases he : embed_ts tss lag (dim + 1) with
  | none =>
    rw [he] at h
    exact absurd h (by simp)
  | some en =>
    rw [he] at h
    simp only [Option.map_some'] at h
    exact ⟨en, rfl, (Option.some_inj.mp h).symm⟩

theorem embed_ts_rows (tss : List ℚ) (lag dim : Nat) (en : List (List ℚ))
    (h : embed_ts tss lag dim = some en) (hd : dim ≠ 0) :
    en.length = tss.length - (dim - 1) * lag ∧
    0 < en.length ∧
    ∀ k, k < en.length → en.getD k []
      = (List.range dim).map (fun j => tss.getD (k + j * lag) 0) ∧
      en.getD k [] ≠ [] := by
  unfold embed_ts at h
  by_cases hc : tss.length < (dim - 1) * lag + 1
  · rw [if_pos hc] at h
    exact absurd h (by simp)
  · rw [if_neg hc] at h
    have hen : en = (List.range (tss.length - (dim - 1) * lag)).map
        (fun i => (List.range dim).map (fun j => tss.getD (i + j * lag) 0)) :=
      (Option.some_inj.mp h).symm
    have hlen : en.length = tss.length - (dim - 1) * lag := by
      rw [hen]
      simp
    refine ⟨hlen, by omega, ?_⟩
    intro k hk
    have hk2 : k < tss.length - (dim - 1) * lag := by omega
    constructor
    · rw [hen]
      exact getD_map_range _ _ hk2
    · rw [hen, getD_map_range _ _ hk2]
      intro hcontra
      have := congrArg List.length hcontra
      simp at this
      omega

/-- C5 amended: for every candidate dimension that embeds successfully and
every point i whose d-dimensional nearest-neighbor distance survives the
duplicate clamping as a finite value, the reused-distance recursion
dist_next[i] = max(dist_cur[i], |extra coordinate difference|) equals the
Chebyshev distance computed from scratch in the (d+1)-dimensional embedding
between point i and its d-dimensional nearest neighbor (the counterexample
shows the degenerate all-duplicate rows are genuinely excepted: there
dist_cur is +inf). -/
theorem cao_dist_recursion_eq_chebyshev (tss : List ℚ) (lag dim : Nat)
    (sd : StepData) (h : mkStep tss lag dim = some sd) (i : Nat) (q : ℚ)
    (hi : i < sd.embNext.length)
    (hq : sd.distCur.getD i XQ.nan = XQ.fin q) :
    sd.distNext.getD i XQ.nan
      = XQ.fin (cheb (sd.embNext.getD i [])
          (sd.embNext.getD (sd.nnInds.getD i 0) [])) := by
  obtain ⟨en, hen, rfl⟩ := mkStep_eq tss lag dim sd h
  simp only at hi hq ⊢
  obtain ⟨-, -, hrows⟩ := embed_ts_rows tss lag (dim + 1) en hen (by omega)
  have heclen : (en.map (fun r : List ℚ => r.tail)).length = en.length := by
    simp
  have hexlen : (en.map (fun r : List ℚ => r.headD (0 : ℚ))).length = en.length := by
    simp
  have hie : i < (en.map (fun r : List ℚ => r.tail)).length := by
    rw [heclen]; exact hi
  -- the nearest-neighbor index is in range
  have hrowlen := dm_row_length (en.map (fun r : List ℚ => r.tail)) hie
  have hrowne : (clampMatrix (distMatrix (en.map (fun r : List ℚ => r.tail)))).getD i []
      ≠ [] := by
    intro hnil
    rw [hnil] at hrowlen
    simp at hrowlen
    omega
  obtain ⟨hrlt, -⟩ := argminRow_spec _ hrowne
    (dm_row_ne_nan (en.map (fun r : List ℚ => r.tail)) hie)
  have hr := nn_inds_getD (en.map (fun r : List ℚ => r.tail)) hie
  set rP := (nnModel (en.map (fun r : List ℚ => r.tail))).1.getD i 0 with hrP
  have hrlt2 : rP < en.length := by
    rw [hr, ← heclen, ← hrowlen]
    exact hrlt
  -- the finite clamped distance is the true d-dimensional Chebyshev distance
  have hdc := nn_dists_getD (en.map (fun r : List ℚ => r.tail)) hie
  rw [← hrP] at hdc
  rw [hdc] at hq
  unfold xget at hq
  rw [dm_row_entry (en.map (fun r : List ℚ => r.tail))
    (by rw [heclen]; exact hrlt2) hie] at hq
  obtain ⟨hqval, -⟩ := clampDup_fin hq
  -- the zipWith entry of dist_next
  have hdnlen : i < (nnModel (en.map (fun r : List ℚ => r.tail))).2.length := by
    rw [nn_dists_length, heclen]
    exact hi
  have hdifflen : i < (((List.range en.length).map (fun k =>
      |(en.map (fun r : List ℚ => r.headD 0)).getD k 0 -
        (en.map (fun r : List ℚ => r.headD 0)).getD
          ((nnModel (en.map (fun r : List ℚ => r.tail))).1.getD k 0) 0|)).map
        XQ.fin).length := by
    simp only [List.length_map, List.length_range]
    exact hi
  rw [getD_zipWith xmax _ _ XQ.nan XQ.nan XQ.nan hdnlen hdifflen]
  rw [getD_map _ _ _ (0 : ℚ)
    (by simp only [List.length_map, List.length_range]; exact hi)]
  rw [getD_map_range _ (0 : ℚ) hi]
  rw [hdc]
  unfold xget
  rw [dm_row_entry (en.map (fun r : List ℚ => r.tail))
    (by rw [heclen]; exact hrlt2) hie, hq]
  rw [← hrP]
  -- decompose the (d+1)-dimensional rows
  obtain ⟨hrowi, hnei⟩ := hrows i hi
  obtain ⟨hrowr, hner⟩ := hrows rP hrlt2
  have hei : en.getD i []
      = (en.map (fun r : List ℚ => r.headD 0)).getD i 0
        :: (en.map (fun r : List ℚ => r.tail)).getD i [] := by
    rw [getD_map en _ _ [] hi, getD_map en _ _ [] hi]
    exact (headD_cons_tail _ _ hnei).symm
  have her : en.getD rP []
      = (en.map (fun r : List ℚ => r.headD 0)).getD rP 0
        :: (en.map (fun r : List ℚ => r.tail)).getD rP [] := by
    rw [getD_map en _ _ [] hrlt2, getD_map en _ _ [] hrlt2]
    exact (headD_cons_tail _ _ hner).symm
  rw [hei, her, cheb_cons]
  have hq2 : q = cheb ((en.map (fun r : List ℚ => r.tail)).getD i [])
      ((en.map (fun r : List ℚ => r.tail)).getD rP []) :=
    hqval.trans (cheb_comm _ _)
  rw [hq2]
  have hxm : ∀ u v : ℚ, xmax (XQ.fin u) (XQ.fin v) = XQ.fin (max u v) :=
    fun u v => rfl
  rw [hxm, max_comm]

/-- Witness for the amended C5 at the series [0, 1, 3, 6], lag 1, candidate
dimension 1, point 0: the 1-dimensional neighbor distance is the finite value
2, and the recursion value equals the 2-dimensional Chebyshev distance to the
assigned neighbor. -/
theorem cao_dist_recursion_eq_chebyshev_witness :
    (mkStep [0, 1, 3, 6] 1 1 = some stepWitness ∧
     0 < stepWitness.embNext.length ∧
     stepWitness.distCur.getD 0 XQ.nan = XQ.fin 2) ∧
    stepWitness.distNext.getD 0 XQ.nan
      = XQ.fin (cheb (stepWitness.embNext.getD 0 [])
          (stepWitness.embNext.getD (stepWitness.nnInds.getD 0 0) [])) :=
  ⟨⟨by with_unfolding_all rfl, by norm_num [stepWitness], rfl⟩,
   cao_dist_recursion_eq_chebyshev [0, 1, 3, 6] 1 1 stepWitness
     (by with_unfolding_all rfl) 0 2 (by norm_num [stepWitness]) rfl⟩

theorem caoLoop_eq_map (tss : List ℚ) (lag : Nat) :
    ∀ dims : List Nat, (∀ d ∈ dims, mkStep tss lag d ≠ none) →
    caoLoop tss lag dims
      = (dims.map (fun d => caoEdAt tss lag d),
         dims.map (fun d => caoEdStarAt tss lag d)) := by
  intro dims
  induction dims with
  | nil => intro _; rfl
  | cons d rest ih =>
    intro h
    have hd : mkStep tss lag d ≠ none := h d (List.mem_cons_self d rest)
    cases hmk : mkStep tss lag d with
    | none => exact absurd hmk hd
    | some sd =>
      have hrest := ih (fun x hx => h x (List.mem_cons_of_mem d hx))
      simp only [caoLoop, hmk, hrest, List.map_cons, caoEdAt, caoEdStarAt]

theorem zip_ratio_getD (l : List XQ) (k : Nat) (hk : k + 1 < l.length) :
    (List.zipWith xdiv l.tail l).getD k XQ.nan
      = xdiv (l.getD (k + 1) XQ.nan) (l.getD k XQ.nan) := by
  rw [getD_zipWith xdiv _ _ XQ.nan XQ.nan XQ.nan
    (by rw [List.length_tail]; omega) (by omega), getD_tail]

theorem ratio_profile_getD (f : Nat → XQ) (dims : List Nat) (k : Nat)
    (hk : k + 1 < dims.length) :
    (List.zipWith xdiv (dims.map f).tail (dims.map f)).getD k XQ.nan
      = xdiv (f (dims.getD (k + 1) 0)) (f (dims.getD k 0)) := by
  rw [zip_ratio_getD _ k (by simpa using hk)]
  rw [getD_map dims f _ 0 hk, getD_map dims f _ 0 (by omega)]

theorem ratio_profile_length (f : Nat → XQ) (dims : List Nat) :
    (List.zipWith xdiv (dims.map f).tail (dims.map f)).length
      = dims.length - 1 := by
  rw [List.length_zipWith, List.length_tail, List.length_map]
  omega

/-- C6: when every candidate dimension embeds successfully, embed_dim_cao
returns two arrays, each one element shorter than dims, whose k-th entries
are the successive ratios E(dims[k+1]) / E(dims[k]) and
E*(dims[k+1]) / E*(dims[k]), where E is the mean over points of
dist_next / dist_cur and E* the mean absolute extra-coordinate difference at
that candidate dimension (caoEdAt / caoEdStarAt). -/
theorem cao_profile_ratio_spec (ts : List ℚ) (sigma : ℚ) (lag : Int)
    (dims : List Nat) (ts_scaled : Option (List ℚ)) (e1 e2 : List XQ)
    (hlag : 0 < lag) (hdims : dims ≠ [])
    (hsucc : ∀ d ∈ dims,
      mkStep (standardize_ts ts sigma ts_scaled) lag.toNat d ≠ none)
    (hres : embed_dim_cao ts sigma lag dims ts_scaled = Except.ok (e1, e2)) :
    e1.length + 1 = dims.length ∧ e2.length + 1 = dims.length ∧
    ∀ k, k + 1 < dims.length →
      e1.getD k XQ.nan
        = xdiv (caoEdAt (standardize_ts ts sigma ts_scaled) lag.toNat
              (dims.getD (k + 1) 0))
            (caoEdAt (standardize_ts ts sigma ts_scaled) lag.toNat
              (dims.getD k 0)) ∧
      e2.getD k XQ.nan
        = xdiv (caoEdStarAt (standardize_ts ts sigma ts_scaled) lag.toNat
              (dims.getD (k + 1) 0))
            (caoEdStarAt (standardize_ts ts sigma ts_scaled) lag.toNat
              (dims.getD k 0)) := by
  unfold embed_dim_cao at hres
  rw [if_neg (not_le.mpr hlag)] at hres
  rw [caoLoop_eq_map _ _ dims hsucc] at hres
  have hpair := Except.ok.inj hres
  have he1 : List.zipWith xdiv
      ((dims.map (fun d =>
        caoEdAt (standardize_ts ts sigma ts_scaled) lag.toNat d)).tail)
      (dims.map (fun d =>
        caoEdAt (standardize_ts ts sigma ts_scaled) lag.toNat d)) = e1 :=
    congrArg Prod.fst hpair
  have he2 : List.zipWith xdiv
      ((dims.map (fun d =>
        caoEdStarAt (standardize_ts ts sigma ts_scaled) lag.toNat d)).tail)
      (dims.map (fun d =>
        caoEdStarAt (standardize_ts ts sigma ts_scaled) lag.toNat d)) = e2 :=
    congrArg Prod.snd hpair
  have hlenpos : 0 < dims.length := List.length_pos.mpr hdims
  refine ⟨?_, ?_, ?_⟩
  · rw [← he1, ratio_profile_length]
    omega
  · rw [← he2, ratio_profile_length]
    omega
  · intro k hk
    exact ⟨by rw [← he1, ratio_profile_getD _ _ _ hk],
           by rw [← he2, ratio_profile_getD _ _ _ hk]⟩

/-- Witness for C6 on the series [0, 0, 1, 1] (standard deviation 1/2) at
lag 1 with dims = [1, 2]: both embeddings succeed, the call returns
e1 = [1] and e2 = [0], each one shorter than dims, and the single entries
are the ratios of the per-dimension E and E* values. -/
theorem cao_profile_ratio_spec_witness :
    embed_dim_cao [0, 0, 1, 1] (1 / 2) 1 [1, 2] none
      = Except.ok ([XQ.fin 1], [XQ.fin 0]) ∧
    ([XQ.fin 1] : List XQ).length + 1 = ([1, 2] : List Nat).length ∧
    ([XQ.fin 0] : List XQ).length + 1 = ([1, 2] : List Nat).length ∧
    (([XQ.fin 1] : List XQ).getD 0 XQ.nan
       = xdiv (caoEdAt (standardize_ts [0, 0, 1, 1] (1 / 2) none) 1 2)
           (caoEdAt (standardize_ts [0, 0, 1, 1] (1 / 2) none) 1 1) ∧
     ([XQ.fin 0] : List XQ).getD 0 XQ.nan
       = xdiv (caoEdStarAt (standardize_ts [0, 0, 1, 1] (1 / 2) none) 1 2)
           (caoEdStarAt (standardize_ts [0, 0, 1, 1] (1 / 2) none) 1 1)) :=
  have h := cao_profile_ratio_spec [0, 0, 1, 1] (1 / 2) 1 [1, 2] none
    [XQ.fin 1] [XQ.fin 0] (by norm_num) (by simp)
    (by with_unfolding_all decide) (by with_unfolding_all rfl)
  ⟨by with_unfolding_all rfl, h.1, h.2.1, h.2.2 0 (by norm_num)⟩

theorem mkStep_distNext_getD (tss : List ℚ) (lag dim : Nat) (sd : StepData)
    (h : mkStep tss lag dim = some sd) (i : Nat) (hi : i < sd.embNext.length) :
    sd.distNext.getD i XQ.nan
      = xmax (sd.distCur.getD i XQ.nan) (XQ.fin (sd.extraDiff.getD i 0)) := by
  obtain ⟨en, hen, rfl⟩ := mkStep_eq tss lag dim sd h
  simp only at hi ⊢
  have h1 : i < (nnModel (en.map (fun r : List ℚ => r.tail))).2.length := by
    rw [nn_dists_length]
    simp only [List.length_map]
    exact hi
  have h2 : i < (((List.range en.length).map (fun k =>
      |(en.map (fun r : List ℚ => r.headD 0)).getD k 0 -
        (en.map (fun r : List ℚ => r.headD 0)).getD
          ((nnModel (en.map (fun r : List ℚ => r.tail))).1.getD k 0) 0|)).map
        XQ.fin).length := by
    simp only [List.length_map, List.length_range]
    exact hi
  rw [getD_zipWith xmax _ _ XQ.nan XQ.nan XQ.nan h1 h2]
  rw [getD_map _ _ _ (0 : ℚ)
    (by simp only [List.length_map, List.length_range]; exact hi)]

theorem fnnEntry_spec (tss : List ℚ) (lag dim : Nat) (sd : StepData)
    (h : mkStep tss lag dim = some sd) (rtol atol tsStd : ℚ) :
    fnnEntry sd rtol atol tsStd
      = (((List.range sd.embNext.length).map (fun i =>
          if (xltB (xscale rtol (sd.distCur.getD i XQ.nan))
                (XQ.fin (sd.extraDiff.getD i 0))
              || xltB (XQ.fin (atol * tsStd))
                  (xmax (sd.distCur.getD i XQ.nan)
                    (XQ.fin (sd.extraDiff.getD i 0)))) = true
          then (1 : ℚ) else 0)).sum) / sd.embNext.length := by
  unfold fnnEntry
  congr 1
  congr 1
  apply List.map_congr_left
  intro i hmem
  have hi : i < sd.embNext.length := List.mem_range.mp hmem
  unfold fnnIsFalse
  rw [mkStep_distNext_getD tss lag dim sd h i hi]

theorem fnnLoop_ok (tss : List ℚ) (lag : Nat) (rtol atol tsStd : ℚ) :
    ∀ (dims : List Nat) (prof : List ℚ),
    fnnLoop tss lag rtol atol tsStd dims = Except.ok prof →
    prof.length = dims.length ∧
    ∀ k, k < dims.length → ∃ sd, mkStep tss lag (dims.getD k 0) = some sd ∧
      prof.getD k 0 = fnnEntry sd rtol atol tsStd := by
  intro dims
  induction dims with
  | nil =>
    intro prof h
    have hp : prof = [] := by
      simp only [fnnLoop] at h
      exact (Except.ok.inj h).symm
    subst hp
    exact ⟨rfl, fun k hk => absurd hk (by simp)⟩
  | cons d rest ih =>
    intro prof h
    cases hmk : mkStep tss lag d with
    | none =>
      simp only [fnnLoop, hmk] at h
      exact absurd h (by simp)
    | some sd =>
      simp only [fnnLoop, hmk] at h
      cases hr : fnnLoop tss lag rtol atol tsStd rest with
      | error e =>
        rw [hr] at h
        exact absurd h (by simp [Except.map])
      | ok l =>
        rw [hr] at h
        have hp : prof = fnnEntry sd rtol atol tsStd :: l :=
          Except.ok.inj h.symm
        subst hp
        obtain ⟨hlen, hspec⟩ := ih l hr
        refine ⟨by simp [hlen], ?_⟩
        intro k hk
        cases k with
        | zero => exact ⟨sd, hmk, rfl⟩
        | succ k2 =>
          have hk2 : k2 < rest.length := by
            simp only [List.length_cons] at hk
            omega
          obtain ⟨sd2, hmk2, hval⟩ := hspec k2 hk2
          exact ⟨sd2, hmk2, hval⟩

/-- C7: whenever embed_dim_fnn returns a profile, the profile has one entry
per candidate dimension, and the entry for dimension d is the mean over all
embedded points of the false-neighbor indicator: point i is a false neighbor
exactly when |x_extra(i) - x_extra(nn(i))| > rtol * dist_d(i, nn(i)) or
max(dist_d(i, nn(i)), |x_extra(i) - x_extra(nn(i))|) > atol * std(raw ts)
(sigma models np.std(ts); rtol and atol default to 10 and 2 in the source,
fnnRtolDefault and fnnAtolDefault). -/
theorem fnn_profile_entry_spec (ts : List ℚ) (sigma : ℚ) (lag : Int)
    (dims : List Nat) (rtol atol : ℚ) (ts_scaled : Option (List ℚ))
    (prof : List ℚ)
    (hres : embed_dim_fnn ts sigma lag dims rtol atol ts_scaled
      = Except.ok prof) :
    prof.length = dims.length ∧
    ∀ k, k < dims.length → ∃ sd,
      mkStep (standardize_ts ts sigma ts_scaled) lag.toNat (dims.getD k 0)
        = some sd ∧
      prof.getD k 0
        = (((List.range sd.embNext.length).map (fun i =>
            if (xltB (xscale rtol (sd.distCur.getD i XQ.nan))
                  (XQ.fin (sd.extraDiff.getD i 0))
                || xltB (XQ.fin (atol * sigma))
                     (xmax (sd.distCur.getD i XQ.nan)
                       (XQ.fin (sd.extraDiff.getD i 0)))) = true
            then (1 : ℚ) else 0)).sum) / sd.embNext.length := by
  unfold embed_dim_fnn at hres
  by_cases hlag : lag ≤ 0
  · rw [if_pos hlag] at hres
    exact absurd hres (by simp)
  · rw [if_neg hlag] at hres
    obtain ⟨hlen, hspec⟩ := fnnLoop_ok _ _ _ _ _ dims prof hres
    refine ⟨hlen, ?_⟩
    intro k hk
    obtain ⟨sd, hmk, hval⟩ := hspec k hk
    refine ⟨sd, hmk, ?_⟩
    rw [hval]
    exact fnnEntry_spec _ _ _ sd hmk rtol atol sigma

/-- Witness for C7 on the series [0, 1] (standard deviation 1/2) at lag 1
with dims = [1] and the default thresholds rtol = 10, atol = 2: the call
returns the profile [1] (the single point is a false neighbor through the
absolute-divergence test, its clamped neighbor distance being +inf), whose
single entry satisfies the classification formula. -/
theorem fnn_profile_entry_spec_witness :
    embed_dim_fnn [0, 1] (1 / 2) 1 [1] 10 2 none = Except.ok [1] ∧
    ([1] : List ℚ).length = ([1] : List Nat).length ∧
    (∃ sd, mkStep (standardize_ts [0, 1] (1 / 2) none) 1
        (([1] : List Nat).getD 0 0) = some sd ∧
      ([1] : List ℚ).getD 0 0
        = (((List.range sd.embNext.length).map (fun i =>
            if (xltB (xscale 10 (sd.distCur.getD i XQ.nan))
                  (XQ.fin (sd.extraDiff.getD i 0))
                || xltB (XQ.fin (2 * (1 / 2 : ℚ)))
                     (xmax (sd.distCur.getD i XQ.nan)
                       (XQ.fin (sd.extraDiff.getD i 0)))) = true
            then (1 : ℚ) else 0)).sum) / sd.embNext.length) :=
  have h := fnn_profile_entry_spec [0, 1] (1 / 2) 1 [1] 10 2 none [1]
    (by with_unfolding_all rfl)
  ⟨by with_unfolding_all rfl, h.1, h.2 0 (by norm_num)⟩

theorem readAt_append {st : Store} {l : List Val} {a : Nat}
    (h : a < st.length) : readAt (st ++ l) a = readAt st a := by
  unfold readAt
  exact List.getElem?_append_left h

theorem readAt_set_ne {st : Store} {b : Nat} {v : Val} {a : Nat} (h : a ≠ b) :
    readAt (writeAt st b v) a = readAt st a := by
  unfold readAt writeAt
  exact List.getElem?_set_ne (fun hc => h hc.symm)

theorem standardizeProg_frame (st : Store) (aTs : Nat) (aScaled : Option Nat)
    (sigma : ℚ) (r : Nat) (st2 : Store)
    (h : standardizeProg st aTs aScaled sigma = some (r, st2)) :
    st.length ≤ st2.length ∧
    ∀ a, a < st.length → readAt st2 a = readAt st a := by
  cases aScaled with
  | some s =>
    simp only [standardizeProg] at h
    have hp := Option.some_inj.mp h
    have hst : st = st2 := congrArg Prod.snd hp
    subst hst
    exact ⟨le_refl _, fun a _ => rfl⟩
  | none =>
    simp only [standardizeProg] at h
    cases hr : readAt st aTs with
    | none =>
      rw [hr] at h
      simp at h
    | some v =>
      cases v with
      | seq ts =>
        rw [hr] at h
        simp only [alloc] at h
        have hp := Option.some_inj.mp h
        have hst : st ++ [Val.seq (scalerTransform ts sigma)] = st2 :=
          congrArg Prod.snd hp
        subst hst
        exact ⟨by simp, fun a ha => readAt_append ha⟩
      | mat m =>
        rw [hr] at h
        simp at h
      | xseq l =>
        rw [hr] at h
        simp at h
      | xmat m =>
        rw [hr] at h
        simp at h

theorem nnProg_frame (st : Store) (aEmb : Nat)
    (r : List Nat × List XQ) (st2 : Store)
    (h : nnProg st aEmb = some (r, st2)) :
    ∀ a, a < st.length → readAt st2 a = readAt st a := by
  simp only [nnProg] at h
  cases hr : readAt st aEmb with
  | none =>
    rw [hr] at h
    simp at h
  | some v =>
    cases v with
    | seq ts =>
      rw [hr] at h
      simp at h
    | mat e =>
      rw [hr] at h
      simp only [alloc] at h
      have hp := Option.some_inj.mp h
      have hst : writeAt (st ++ [Val.mat (distMatrix e)]) st.length
          (Val.xmat (clampMatrix (distMatrix e))) = st2 := congrArg Prod.snd hp
      subst hst
      intro a ha
      rw [readAt_set_ne (by omega), readAt_append ha]
    | xseq l =>
      rw [hr] at h
      simp at h
    | xmat m =>
      rw [hr] at h
      simp at h

theorem fnnProgLoop_frame (tss : List ℚ) (lag : Nat) (rtol atol tsStd : ℚ)
    (aProp : Nat) :
    ∀ (pairs : List (Nat × Nat)) (st : Store) (a : Nat), a < st.length →
      a ≠ aProp →
      readAt (fnnProgLoop tss lag rtol atol tsStd aProp pairs st).2 a
        = readAt st a := by
  intro pairs
  induction pairs with
  | nil => intro st a ha hne; rfl
  | cons p rest ih =>
    intro st a ha hne
    obtain ⟨ind, dim⟩ := p
    cases hmk : mkStep tss lag dim with
    | none => simp only [fnnProgLoop, hmk]
    | some sd =>
      simp only [fnnProgLoop, hmk, alloc]
      rw [ih _ a (by simp [writeAt]; omega) hne]
      rw [readAt_set_ne hne, readAt_set_ne (by omega), readAt_append ha]

theorem fnnProg_frame (st : Store) (aTs : Nat) (aScaled : Option Nat)
    (sigma : ℚ) (lag : Int) (dims : List Nat) (rtol atol : ℚ)
    (res : Except PyErr (List ℚ)) (st2 : Store)
    (h : fnnProg st aTs aScaled sigma lag dims rtol atol = some (res, st2)) :
    ∀ a, a < st.length → readAt st2 a = readAt st a := by
  simp only [fnnProg, alloc] at h
  split at h
  rotate_left
  · exact absurd h (by simp)
  split at h
  · have hst : st = st2 := congrArg Prod.snd (Option.some_inj.mp h)
    subst hst
    exact fun a _ => rfl
  split at h
  · exact absurd h (by simp)
  split at h
  rotate_left
  · exact absurd h (by simp)
  rename_i x1 aTss st1 hsp x0 tss hr1
  obtain ⟨hlen1, hframe1⟩ :=
    standardizeProg_frame st aTs aScaled sigma aTss st1 hsp
  intro a ha
  have hst2 : st2 = (fnnProgLoop tss lag.toNat rtol atol sigma
      (List.length st1) dims.enum
      (st1 ++ [Val.seq (List.replicate dims.length 0)])).2 := by
    split at h
    · exact (congrArg Prod.snd (Option.some_inj.mp h)).symm
    · split at h
      · exact (congrArg Prod.snd (Option.some_inj.mp h)).symm
      · exact absurd h (by simp)
  rw [hst2, fnnProgLoop_frame tss lag.toNat rtol atol sigma
    (List.length st1) dims.enum _ a (by simp; omega) (by omega),
    readAt_append (by omega)]
  exact hframe1 a ha

theorem caoProgLoop_frame (tss : List ℚ) (lag : Nat) (aEd aEds : Nat) :
    ∀ (pairs : List (Nat × Nat)) (st : Store) (a : Nat), a < st.length →
      a ≠ aEd → a ≠ aEds →
      readAt (caoProgLoop tss lag aEd aEds pairs st) a = readAt st a := by
  intro pairs
  induction pairs with
  | nil => intro st a ha hne1 hne2; rfl
  | cons p rest ih =>
    intro st a ha hne1 hne2
    obtain ⟨ind, dim⟩ := p
    cases hmk : mkStep tss lag dim with
    | none =>
      simp only [caoProgLoop, hmk]
      rw [readAt_set_ne hne2, readAt_set_ne hne1]
    | some sd =>
      simp only [caoProgLoop, hmk, alloc]
      rw [ih _ a (by simp [writeAt]; omega) hne1 hne2]
      rw [readAt_set_ne hne2, readAt_set_ne hne1,
        readAt_set_ne (by omega), readAt_append ha]

theorem caoProg_frame (st : Store) (aTs : Nat) (aScaled : Option Nat)
    (sigma : ℚ) (lag : Int) (dims : List Nat)
    (res : Except PyErr (List XQ × List XQ)) (st2 : Store)
    (h : caoProg st aTs aScaled sigma lag dims = some (res, st2)) :
    ∀ a, a < st.length → readAt st2 a = readAt st a := by
  simp only [caoProg, alloc] at h
  split at h
  rotate_left
  · exact absurd h (by simp)
  split at h
  · have hst : st = st2 := congrArg Prod.snd (Option.some_inj.mp h)
    subst hst
    exact fun a _ => rfl
  split at h
  · exact absurd h (by simp)
  split at h
  rotate_left
  · exact absurd h (by simp)
  rename_i x1 aTss st1 hsp x0 tss hr1
  obtain ⟨hlen1, hframe1⟩ :=
    standardizeProg_frame st aTs aScaled sigma aTss st1 hsp
  intro a ha
  have hst2 : st2 = caoProgLoop tss lag.toNat (List.length st1)
      (List.length (st1 ++ [Val.xseq (List.replicate dims.length (XQ.fin 0))]))
      dims.enum
      ((st1 ++ [Val.xseq (List.replicate dims.length (XQ.fin 0))])
        ++ [Val.xseq (List.replicate dims.length (XQ.fin 0))]) := by
    split at h
    · exact (congrArg Prod.snd (Option.some_inj.mp h)).symm
    · exact absurd h (by simp)
  rw [hst2, caoProgLoop_frame tss lag.toNat (List.length st1)
    (List.length (st1 ++ [Val.xseq (List.replicate dims.length (XQ.fin 0))]))
    dims.enum _ a (by simp; omega) (by omega) (by simp; omega),
    readAt_append (by simp; omega), readAt_append (by omega)]
  exact hframe1 a ha

/-- C9: no core operation mutates an array it receives as input.  In the
address-indexed heap model, every in-place write the source performs — the
duplicate clamping of the distance matrix inside nn (line 343), the
element writes into fnn_prop (line 397), and the element and NaN-suffix
writes into ed and ed_star (lines 433-434 and 451-452) — targets an array
the operation allocated itself, so every array that existed before the call
(in particular the input time series at aTs, a precomputed scaled series,
and the input embedding at aEmb) holds exactly the same elements after
standardize_ts, nn, embed_dim_fnn or embed_dim_cao as before. -/
theorem core_ops_preserve_inputs (st : Store) (aTs aEmb : Nat)
    (aScaled : Option Nat) (sigma rtol atol : ℚ) (lag : Int)
    (dims : List Nat) :
    (∀ r st2, standardizeProg st aTs aScaled sigma = some (r, st2) →
      ∀ a, a < st.length → readAt st2 a = readAt st a) ∧
    (∀ r st2, nnProg st aEmb = some (r, st2) →
      ∀ a, a < st.length → readAt st2 a = readAt st a) ∧
    (∀ r st2, fnnProg st aTs aScaled sigma lag dims rtol atol
        = some (r, st2) →
      ∀ a, a < st.length → readAt st2 a = readAt st a) ∧
    (∀ r st2, caoProg st aTs aScaled sigma lag dims = some (r, st2) →
      ∀ a, a < st.length → readAt st2 a = readAt st a) :=
  ⟨fun r st2 h => (standardizeProg_frame st aTs aScaled sigma r st2 h).2,
   fun r st2 h => nnProg_frame st aEmb r st2 h,
   fun r st2 h => fnnProg_frame st aTs aScaled sigma lag dims rtol atol
     r st2 h,
   fun r st2 h => caoProg_frame st aTs aScaled sigma lag dims r st2 h⟩

/-- Witness for C9 on the two-array heap [ts = [0, 1], embed = [[0], [1]]]:
each of the four operations runs to completion (lag 1, dims = [1],
standard deviation 1/2, default thresholds), and the input array at
address 0 reads back unchanged from the resulting heap. -/
theorem core_ops_preserve_inputs_witness :
    readAt [Val.seq [0, 1], Val.mat [[0], [1]], Val.seq [-1, 1]] 0
      = readAt [Val.seq [0, 1], Val.mat [[0], [1]]] 0 ∧
    readAt [Val.seq [0, 1], Val.mat [[0], [1]],
      Val.xmat [[XQ.inf, XQ.fin 1], [XQ.fin 1, XQ.inf]]] 0
      = readAt [Val.seq [0, 1], Val.mat [[0], [1]]] 0 ∧
    readAt [Val.seq [0, 1], Val.mat [[0], [1]], Val.seq [-1, 1],
      Val.seq [1], Val.xmat [[XQ.inf]]] 0
      = readAt [Val.seq [0, 1], Val.mat [[0], [1]]] 0 ∧
    readAt [Val.seq [0, 1], Val.mat [[0], [1]], Val.seq [-1, 1],
      Val.xseq [XQ.nan], Val.xseq [XQ.fin 0], Val.xmat [[XQ.inf]]] 0
      = readAt [Val.seq [0, 1], Val.mat [[0], [1]]] 0 :=
  have h := core_ops_preserve_inputs [Val.seq [0, 1], Val.mat [[0], [1]]]
    0 1 none (1 / 2) 10 2 1 [1]
  ⟨h.1 2 [Val.seq [0, 1], Val.mat [[0], [1]], Val.seq [-1, 1]]
     (by with_unfolding_all rfl) 0 (by norm_num),
   h.2.1 ([1, 0], [XQ.fin 1, XQ.fin 1])
     [Val.seq [0, 1], Val.mat [[0], [1]],
       Val.xmat [[XQ.inf, XQ.fin 1], [XQ.fin 1, XQ.inf]]]
     (by with_unfolding_all rfl) 0 (by norm_num),
   h.2.2.1 (Except.ok [1])
     [Val.seq [0, 1], Val.mat [[0], [1]], Val.seq [-1, 1], Val.seq [1],
       Val.xmat [[XQ.inf]]]
     (by with_unfolding_all rfl) 0 (by norm_num),
   h.2.2.2 (Except.ok ([], []))
     [Val.seq [0, 1], Val.mat [[0], [1]], Val.seq [-1, 1], Val.xseq [XQ.nan],
       Val.xseq [XQ.fin 0], Val.xmat [[XQ.inf]]]
     (by with_unfolding_all rfl) 0 (by norm_num)⟩

end TsPymfe
